import Mathlib

/-! # Storage: object model and snapshot differ

A shallow embedding of `object.go` (the object model, `HasExtension`, the prefix
helpers and `GetObjectSliceDiff`), of the listing functions of the adapters
(`dir.go`, `amazon.go`, `google.go`, `etcd.go`) and of the key-value adapter's
`GetObject` and `PutObject`, with the properties of the specification proved
over it.

Conventions of the embedding:

* A Go `string` is a finite sequence of bytes. It is modelled as `List Char`, one
  element per byte; every byte sequence embeds in `List Char`, and the string
  operations used here (`==`, concatenation, `strings.Index`, `strings.Contains`,
  `strings.Replace`) only compare elements for equality, so a statement proved
  for every `List Char` holds for every Go string.
* A `time.Time` is modelled as an instant in nanoseconds (`Int`), without a
  monotonic clock reading; a `time.Duration` is an `Int` number of nanoseconds.
  `Time.Sub` saturates at the ends of the 64-bit range as the Go library does.
* A Go slice is a `List`; `append(s, x)` is `s ++ [x]`. A `[]byte` is a `List Nat`.
* The calls of an adapter to its backend are not part of the repository: a
  listing function is modelled as a function of what the backend answers, and
  `filepath.Ext` is modelled with `/` as the only path separator.
* A Go `map[string]Object` is a finite function from keys to `Option Object`.
-/

namespace Storage

/-- A Go string, one list element per byte. -/
abbrev GoString := List Char

/-- Equality of Go strings is decided element by element. -/
instance (priority := 2000) instDecidableEqGoString (a b : GoString) : Decidable (a = b) :=
  instDecidableEqList a b

/-- An instant, in nanoseconds. -/
abbrev Time := Int

/-- A `time.Duration`, in nanoseconds. -/
abbrev Duration := Int

/-- The largest `time.Duration`, `1<<63 - 1` nanoseconds. -/
def maxDuration : Duration := 9223372036854775807

/-- The smallest `time.Duration`, `-1 << 63` nanoseconds. -/
def minDuration : Duration := -9223372036854775808

/-- The library function `t.Sub(u)`: the duration `t - u`, replaced by the
largest (smallest) duration when it exceeds the range of a `Duration`. -/
def Time.Sub (t u : Time) : Duration :=
  if t - u > maxDuration then maxDuration
  else if t - u < minDuration then minDuration
  else t - u

/-- Metadata represents the meta information of the object. -/
structure Metadata where
  Name : GoString := []
  Version : GoString := []
deriving DecidableEq, Repr

/-- Object is a generic representation of a storage object. -/
structure Object where
  Meta : Metadata := {}
  Path : GoString := []
  Data : List Nat := []
  LastModified : Time := 0
deriving DecidableEq, Repr

/-- ObjectSliceDiff provides information on what has changed since last
calling ListObjects. -/
structure ObjectSliceDiff where
  Change : Bool := false
  Removed : List Object := []
  Added : List Object := []
  Updated : List Object := []
deriving DecidableEq, Repr

/-- A `map[string]Object`. -/
abbrev ObjectMap := GoString → Option Object

/-- The result of `make(map[string]Object)`. -/
def ObjectMap.empty : ObjectMap := fun _ => none

/-- The assignment `m[k] = v`. -/
def ObjectMap.set (m : ObjectMap) (k : GoString) (v : Object) : ObjectMap :=
  fun k' => if k' = k then some v else m k'

/-- The loop `for _, o := range os { m[o.Path] = o }` from an empty map. -/
def indexByPath (os : List Object) : ObjectMap :=
  os.foldl (fun m o => m.set o.Path o) ObjectMap.empty

/-- One iteration of the loop over `prev` in `GetObjectSliceDiff`. -/
def diffPrevStep (cos : ObjectMap) (tol : Duration) (diff : ObjectSliceDiff) (p : Object) :
    ObjectSliceDiff :=
  match cos p.Path with
  | some c =>
    if Time.Sub c.LastModified p.LastModified > tol then
      { diff with Updated := diff.Updated ++ [c] }
    else diff
  | none => { diff with Removed := diff.Removed ++ [p] }

/-- One iteration of the loop over `curr` in `GetObjectSliceDiff`. -/
def diffCurrStep (pos : ObjectMap) (diff : ObjectSliceDiff) (c : Object) : ObjectSliceDiff :=
  match pos c.Path with
  | some _ => diff
  | none => { diff with Added := diff.Added ++ [c] }

/-- GetObjectSliceDiff takes two objects slices and returns an ObjectSliceDiff. -/
def GetObjectSliceDiff (prev curr : List Object) (timestampTolerance : Duration) :
    ObjectSliceDiff :=
  let pos := indexByPath prev
  let cos := indexByPath curr
  let diff := prev.foldl (diffPrevStep cos timestampTolerance) {}
  let diff := curr.foldl (diffCurrStep pos) diff
  { diff with
    Change := decide (diff.Removed.length + diff.Added.length + diff.Updated.length > 0) }

/-! ## Prefix helpers of `object.go` and the listing loops -/

/-- The library function `strings.Index(s, substr)`: the position of the first
occurrence of `substr` in `s`, `none` where Go returns `-1`. -/
def strings.Index : GoString → GoString → Option Nat
  | [], substr => if substr.isPrefixOf [] then some 0 else none
  | c :: t, substr =>
    if substr.isPrefixOf (c :: t) then some 0 else (strings.Index t substr).map (· + 1)

/-- The library function `strings.Contains(s, substr)`. -/
def strings.Contains (s substr : GoString) : Bool :=
  (strings.Index s substr).isSome

/-- The library call `strings.Replace(s, old, new, 1)`: `s` with its first
occurrence of `old` replaced by `new`, and `s` itself when there is none. -/
def strings.ReplaceFirst (s old new : GoString) : GoString :=
  if old = new then s
  else
    match strings.Index s old with
    | none => s
    | some j => s.take j ++ new ++ s.drop (j + old.length)

/-- The function `removePrefixFromObjectPath` of `object.go`;
`fmt.Sprintf("%s/", prefix)` is `prefix` followed by a slash. -/
def removePrefixFromObjectPath (pfx path : GoString) : GoString :=
  if pfx = [] then path
  else strings.ReplaceFirst path (pfx ++ ['/']) []

/-- The function `objectPathIsInvalid` of `object.go`. -/
def objectPathIsInvalid (path : GoString) : Bool :=
  strings.Contains path ['/'] || decide (path = [])

/-- An entry of `s3Result.Contents`: the key and the modification time. -/
structure S3Entry where
  Key : GoString
  LastModified : Time
deriving DecidableEq, Repr

/-- The attributes the cloud-blob iterator yields: the name and the update time. -/
structure ObjectAttrs where
  Name : GoString
  Updated : Time
deriving DecidableEq, Repr

/-- The body of the loop over `s3Result.Contents` in `AWSStorage.ListObjects`,
`pfx` being `path.Join(s.Prefix, prefix)`. -/
def awsListStep (pfx : GoString) (objects : List Object) (obj : S3Entry) : List Object :=
  let path := removePrefixFromObjectPath pfx obj.Key
  if objectPathIsInvalid path then objects
  else objects ++ [{ Path := path, Data := [], LastModified := obj.LastModified }]

/-- The loop over one page of results in `AWSStorage.ListObjects`. -/
def awsListContents (pfx : GoString) (objects : List Object) (contents : List S3Entry) :
    List Object :=
  contents.foldl (awsListStep pfx) objects

/-- The loop of `GCPStorage.ListObjects` over what `it.Next()` returns: an entry,
an error, or (at the end of the list) `iterator.Done`. -/
def gcpListLoop {ε : Type} (pfx : GoString) :
    List (Except ε ObjectAttrs) → List Object → List Object × Option ε
  | [], objects => (objects, none)
  | Except.error err :: _, objects => (objects, some err)
  | Except.ok attrs :: rest, objects =>
    let key := removePrefixFromObjectPath pfx attrs.Name
    if objectPathIsInvalid key then gcpListLoop pfx rest objects
    else gcpListLoop pfx rest
      (objects ++ [{ Path := key, Data := [], LastModified := attrs.Updated }])

/-! ## `HasExtension` and `cleanPrefix` of `object.go` -/

/-- The loop of the library function `filepath.Ext`, run over the bytes of the
path from the last one backwards: `acc` is the text after the byte under
inspection. It stops with no extension at a path separator (`/`) and returns the
text from the dot on at a dot. -/
def filepath.ExtLoop : List Char → GoString → GoString
  | [], _ => []
  | c :: before, acc =>
    if c = '/' then []
    else if c = '.' then c :: acc
    else filepath.ExtLoop before (c :: acc)

/-- The library function `filepath.Ext(path)`, with `/` as the path separator. -/
def filepath.Ext (path : GoString) : GoString :=
  filepath.ExtLoop path.reverse []

/-- HasExtension determines whether or not an object contains a file extension;
`fmt.Sprintf(".%s", extension)` is a dot followed by `extension`. -/
def Object.HasExtension (object : Object) (extension : GoString) : Bool :=
  decide (filepath.Ext object.Path = '.' :: extension)

/-- The library helper `trimRightByte(s, c)`. -/
def strings.trimRightByte (s : GoString) (c : Char) : GoString :=
  (s.reverse.dropWhile (fun x => x == c)).reverse

/-- The library helper `trimLeftByte(s, c)`. -/
def strings.trimLeftByte (s : GoString) (c : Char) : GoString :=
  s.dropWhile (fun x => x == c)

/-- The library function `strings.Trim(s, cutset)` for a cutset of single-byte
characters: `s` without its leading and trailing bytes that occur in `cutset`. -/
def strings.Trim (s cutset : GoString) : GoString :=
  if s = [] ∨ cutset = [] then s
  else
    match cutset with
    | [c] => strings.trimLeftByte (strings.trimRightByte s c) c
    | _ => ((s.dropWhile (fun x => cutset.elem x)).reverse.dropWhile
        (fun x => cutset.elem x)).reverse

/-- The function `cleanPrefix` of `object.go`. -/
def cleanPrefix (pfx : GoString) : GoString :=
  strings.Trim pfx ['/']

/-! ## The listing functions of the adapters -/

/-- What `ioutil.ReadDir` reports of one directory entry. -/
structure FileInfo where
  Name : GoString
  IsDir : Bool
  ModTime : Time
deriving DecidableEq, Repr

/-- One iteration of the loop over the entries in `DirStorage.ListObjects`. -/
def dirListStep (objects : List Object) (f : FileInfo) : List Object :=
  if f.IsDir then objects
  else objects ++ [{ Path := f.Name, Data := [], LastModified := f.ModTime }]

/-- The method `DirStorage.ListObjects` as a function of the outcome of
`ioutil.ReadDir`; `isNotExist` is `os.IsNotExist`. The result is the returned
slice and the returned error (`none` for `nil`). -/
def DirStorage.ListObjects {ε : Type} (isNotExist : ε → Bool) (read : Except ε (List FileInfo)) :
    List Object × Option ε :=
  match read with
  | Except.error err => if isNotExist err then ([], none) else ([], some err)
  | Except.ok files => (files.foldl dirListStep [], none)

/-- A page of results of the object store: `s3Result.Contents` and
`*s3Result.IsTruncated`. -/
structure S3Page where
  Contents : List S3Entry
  IsTruncated : Bool
deriving DecidableEq, Repr

/-- How a run of `AWSStorage.ListObjects` ends: it returns a slice and an error
(`none` for `nil`), or it faults on the index `len(s3Result.Contents)-1` of an
empty page, or the given sequence of responses holds no answer to its request. -/
inductive ListOutcome (ε : Type) where
  | returned (objects : List Object) (err : Option ε)
  | indexOutOfRange
  | noResponse
deriving DecidableEq, Repr

/-- The loop of `AWSStorage.ListObjects` over the responses of the object store,
in the order they are given. `marker` is `s3Input.Marker` (`none` for unset);
the second component lists the marker of every request made. -/
def awsListLoop {ε : Type} (pfx : GoString) :
    List (Except ε S3Page) → Option GoString → List Object →
      ListOutcome ε × List (Option GoString)
  | [], marker, _ => (ListOutcome.noResponse, [marker])
  | Except.error err :: _, marker, objects => (ListOutcome.returned objects (some err), [marker])
  | Except.ok s3Result :: later, marker, objects =>
    let objects := awsListContents pfx objects s3Result.Contents
    if !s3Result.IsTruncated then (ListOutcome.returned objects none, [marker])
    else
      match s3Result.Contents.getLast? with
      | none => (ListOutcome.indexOutOfRange, [marker])
      | some last =>
        let r := awsListLoop pfx later (some last.Key) objects
        (r.1, marker :: r.2)

/-- The method `AWSStorage.ListObjects`, `pfx` being `path.Join(s.Prefix, prefix)`. -/
def AWSStorage.ListObjects {ε : Type} (pfx : GoString) (responses : List (Except ε S3Page)) :
    ListOutcome ε × List (Option GoString) :=
  awsListLoop pfx responses none []

/-- The method `GCPStorage.ListObjects`, `pfx` being `path.Join(s.prefix, prefix)`. -/
def GCPStorage.ListObjects {ε : Type} (pfx : GoString) (it : List (Except ε ObjectAttrs)) :
    List Object × Option ε :=
  gcpListLoop pfx it []

/-! ## The key-value adapter of `etcd.go` -/

/-- The conversion `[]byte(s)`. -/
def goBytes (s : GoString) : List Nat := s.map Char.toNat

/-- The conversion `string(b)`. -/
def goString (b : List Nat) : GoString := b.map Char.ofNat

/-- A key-value pair of a response of the store. -/
structure KeyValue where
  Key : List Nat
  Value : List Nat
deriving DecidableEq, Repr

/-- The errors of the key-value adapter: an error of the client, or the error
`no results` made by `GetObject`. -/
inductive EtcdError (ε : Type) where
  | client (err : ε)
  | noResults
deriving DecidableEq, Repr

/-- A key-to-value store: the value last put under each key. -/
abbrev KVStore := GoString → Option GoString

/-- The store that holds no key. -/
def KVStore.emptyStore : KVStore := fun _ => none

/-- The store after `Client.Put(ctx, key, val)`. -/
def KVStore.Put (store : KVStore) (key val : GoString) : KVStore :=
  fun k => if k = key then some val else store k

/-- The pairs `Client.Get(ctx, key)` returns: the pair of the key, if any. -/
def KVStore.Get (store : KVStore) (key : GoString) : List KeyValue :=
  match store key with
  | some val => [{ Key := goBytes key, Value := goBytes val }]
  | none => []

/-- The method `etcdStorage.GetObject` as a function of what `Client.Get`
returns. -/
def etcdStorage.GetObject {ε : Type} (res : Except ε (List KeyValue)) (key : GoString) :
    Except (EtcdError ε) Object :=
  match res with
  | Except.error err => Except.error (EtcdError.client err)
  | Except.ok [] => Except.error EtcdError.noResults
  | Except.ok (val :: _) =>
    Except.ok { Meta := { Name := [], Version := [] }, Path := key, Data := val.Key }

/-- The method `etcdStorage.PutObject` over a store whose `Put` succeeds. -/
def etcdStorage.PutObject (store : KVStore) (key : GoString) (data : List Nat) : KVStore :=
  store.Put key (goString data)

/-- The method `etcdStorage.ListObjects` as a function of what the range query
`Client.Get(ctx, prefix, WithPrefix())` returns. -/
def etcdStorage.ListObjects {ε : Type} (res : Except ε (List KeyValue)) :
    Except ε (List Object) :=
  match res with
  | Except.error err => Except.error err
  | Except.ok kvs =>
    Except.ok (kvs.foldl (fun result val =>
      result ++ [{ Meta := { Name := [], Version := [] }, Path := goString val.Key,
                   Data := val.Value }]) [])

/-! ## Definitions that follow the words of the specification -/

/-- The text of `s` after its last occurrence of `c`; all of `s` when `c` does
not occur. -/
def textAfterLast (c : Char) (s : GoString) : GoString :=
  (s.reverse.takeWhile (fun x => x != c)).reverse

/-- The last path segment: the text after the final `/`. -/
def lastSegment (path : GoString) : GoString :=
  textAfterLast '/' path

/-! ## Auxiliary definitions for the statements and proofs -/

/-- The objects of `os` whose path is `k`. -/
def withPath (os : List Object) (k : GoString) : List Object :=
  os.filter (fun o => decide (o.Path = k))

/-- Paths are pairwise distinct within the listing. -/
def DistinctPaths (os : List Object) : Prop :=
  os.Pairwise (fun a b => a.Path ≠ b.Path)

instance (os : List Object) : Decidable (DistinctPaths os) := by
  unfold DistinctPaths; infer_instance

/-- What the loop over `prev` appends to `Updated` for one object of `prev`. -/
def updatedFor (cos : ObjectMap) (tol : Duration) (p : Object) : Option Object :=
  match cos p.Path with
  | some c => if Time.Sub c.LastModified p.LastModified > tol then some c else none
  | none => none

/-- The Object the object-store and cloud-blob loops make of a raw key and its
time, `none` when the key is skipped. -/
def listedObject (pfx : GoString) (key : GoString) (t : Time) : Option Object :=
  if objectPathIsInvalid (removePrefixFromObjectPath pfx key) then none
  else some { Path := removePrefixFromObjectPath pfx key, Data := [], LastModified := t }

/-- The Object the filesystem loop makes of a directory entry that is a file. -/
def fileObject (f : FileInfo) : Object :=
  { Path := f.Name, Data := [], LastModified := f.ModTime }

/-! ## Example listings -/

/-- The listing of the repository test: one object `test1.txt` at instant `t`. -/
def listingAt (t : Time) : List Object :=
  [{ Path := "test1.txt".toList, LastModified := t }]

/-- Two objects with different paths. -/
def twoObjects : List Object :=
  [{ Path := "test1.txt".toList, LastModified := 0 },
   { Path := "test2.txt".toList, LastModified := 0 }]

/-- A directory read giving the directory `ignoreme` and the file `test1.txt`. -/
def exampleEntries : List FileInfo :=
  [{ Name := "ignoreme".toList, IsDir := true, ModTime := 5 },
   { Name := "test1.txt".toList, IsDir := false, ModTime := 7 }]

/-! ## The lookups built by `GetObjectSliceDiff` -/

theorem foldl_set_apply (os : List Object) (m : ObjectMap) (k : GoString) :
    os.foldl (fun m o => m.set o.Path o) m k =
      match (withPath os k).getLast? with
      | some o => some o
      | none => m k := by
  induction os generalizing m with
  | nil => simp [withPath]
  | cons a t ih =>
    rw [List.foldl_cons, ih]
    by_cases h : a.Path = k
    · have hw : withPath (a :: t) k = a :: withPath t k := by simp [withPath, h]
      rw [hw]
      cases ht : withPath t k with
      | nil => simp [ObjectMap.set, h]
      | cons b r =>
        rw [List.getLast?_cons_cons]
        cases hl : (b :: r).getLast? with
        | some o => rfl
        | none => simp at hl
    · have hw : withPath (a :: t) k = withPath t k := by simp [withPath, h]
      rw [hw]
      cases hl : (withPath t k).getLast? with
      | some o => rfl
      | none =>
        have : ¬ k = a.Path := fun e => h e.symm
        simp [ObjectMap.set, this]

/-- The lookup holds, for each path, the last object of the listing with it. -/
theorem indexByPath_apply (os : List Object) (k : GoString) :
    indexByPath os k = (withPath os k).getLast? := by
  unfold indexByPath
  rw [foldl_set_apply]
  cases (withPath os k).getLast? <;> rfl

theorem indexByPath_eq_none {os : List Object} {k : GoString} :
    indexByPath os k = none ↔ ∀ o ∈ os, o.Path ≠ k := by
  rw [indexByPath_apply, List.getLast?_eq_none_iff]
  simp [withPath, List.filter_eq_nil_iff]

theorem indexByPath_some {os : List Object} {k : GoString} {c : Object}
    (h : indexByPath os k = some c) : c ∈ os ∧ c.Path = k := by
  rw [indexByPath_apply] at h
  have hm : c ∈ withPath os k := List.mem_of_getLast?_eq_some h
  simpa [withPath] using hm

theorem withPath_of_distinct {os : List Object} (hd : DistinctPaths os) {c : Object}
    (hc : c ∈ os) : withPath os c.Path = [c] := by
  induction os with
  | nil => cases hc
  | cons a t ih =>
    rw [DistinctPaths, List.pairwise_cons] at hd
    rcases List.mem_cons.1 hc with rfl | hct
    · have : withPath t c.Path = [] := by
        simp only [withPath, List.filter_eq_nil_iff, decide_eq_true_eq]
        intro b hb e
        exact hd.1 b hb e.symm
      simp [withPath] at this ⊢
      exact this
    · have hne : a.Path ≠ c.Path := hd.1 c hct
      have := ih hd.2 hct
      simpa [withPath, hne] using this

/-- With pairwise-distinct paths the lookup returns the object itself. -/
theorem indexByPath_of_distinct {os : List Object} (hd : DistinctPaths os) {c : Object}
    (hc : c ∈ os) : indexByPath os c.Path = some c := by
  rw [indexByPath_apply, withPath_of_distinct hd hc]; rfl

/-! ## Closed forms of the two loops -/

theorem foldl_diffPrevStep (cos : ObjectMap) (tol : Duration) (prev : List Object)
    (d : ObjectSliceDiff) :
    prev.foldl (diffPrevStep cos tol) d =
      { d with
        Removed := d.Removed ++ prev.filter (fun p => (cos p.Path).isNone)
        Updated := d.Updated ++ prev.filterMap (updatedFor cos tol) } := by
  induction prev generalizing d with
  | nil => simp
  | cons p t ih =>
    rw [List.foldl_cons, ih]
    unfold diffPrevStep updatedFor
    cases hc : cos p.Path with
    | none => simp [List.filterMap_cons, hc, updatedFor]
    | some c =>
      by_cases hlt : Time.Sub c.LastModified p.LastModified > tol
      · simp [List.filterMap_cons, hc, hlt, updatedFor]
      · simp [List.filterMap_cons, hc, hlt, updatedFor]

theorem foldl_diffCurrStep (pos : ObjectMap) (curr : List Object) (d : ObjectSliceDiff) :
    curr.foldl (diffCurrStep pos) d =
      { d with Added := d.Added ++ curr.filter (fun c => (pos c.Path).isNone) } := by
  induction curr generalizing d with
  | nil => simp
  | cons c t ih =>
    rw [List.foldl_cons, ih]
    unfold diffCurrStep
    cases hc : pos c.Path with
    | none => simp [hc]
    | some _ => simp [hc]

theorem removed_eq (prev curr : List Object) (tol : Duration) :
    (GetObjectSliceDiff prev curr tol).Removed =
      prev.filter (fun p => (indexByPath curr p.Path).isNone) := by
  simp [GetObjectSliceDiff, foldl_diffPrevStep, foldl_diffCurrStep]

theorem added_eq (prev curr : List Object) (tol : Duration) :
    (GetObjectSliceDiff prev curr tol).Added =
      curr.filter (fun c => (indexByPath prev c.Path).isNone) := by
  simp [GetObjectSliceDiff, foldl_diffPrevStep, foldl_diffCurrStep]

theorem updated_eq (prev curr : List Object) (tol : Duration) :
    (GetObjectSliceDiff prev curr tol).Updated =
      prev.filterMap (updatedFor (indexByPath curr) tol) := by
  simp [GetObjectSliceDiff, foldl_diffPrevStep, foldl_diffCurrStep]

theorem change_eq (prev curr : List Object) (tol : Duration) :
    (GetObjectSliceDiff prev curr tol).Change =
      decide ((GetObjectSliceDiff prev curr tol).Removed.length +
        (GetObjectSliceDiff prev curr tol).Added.length +
        (GetObjectSliceDiff prev curr tol).Updated.length > 0) := by
  simp [GetObjectSliceDiff, foldl_diffPrevStep, foldl_diffCurrStep]

theorem isNone_indexByPath (os : List Object) (k : GoString) :
    (indexByPath os k).isNone = true ↔ ∀ o ∈ os, o.Path ≠ k := by
  rw [Option.isNone_iff_eq_none, indexByPath_eq_none]

theorem eq_of_path_eq {os : List Object} (hd : DistinctPaths os) {a b : Object}
    (ha : a ∈ os) (hb : b ∈ os) (h : a.Path = b.Path) : a = b := by
  have hm : a ∈ withPath os b.Path := by simp [withPath, ha, h]
  rw [withPath_of_distinct hd hb] at hm
  simpa using hm

/-- With pairwise-distinct paths the lookup is the search for the path. -/
theorem indexByPath_eq_find {os : List Object} (hd : DistinctPaths os) (k : GoString) :
    indexByPath os k = os.find? (fun c => decide (c.Path = k)) := by
  cases hf : os.find? (fun c => decide (c.Path = k)) with
  | none =>
    rw [indexByPath_eq_none]
    intro o ho
    have := List.find?_eq_none.1 hf o ho
    simpa using this
  | some c =>
    have hk : c.Path = k := by simpa using List.find?_some hf
    have hm : c ∈ os := List.mem_of_find?_eq_some hf
    rw [← hk]
    exact indexByPath_of_distinct hd hm

theorem mem_updated_iff {prev curr : List Object} {tol : Duration} {o : Object} :
    o ∈ (GetObjectSliceDiff prev curr tol).Updated ↔
      ∃ p ∈ prev, indexByPath curr p.Path = some o ∧
        Time.Sub o.LastModified p.LastModified > tol := by
  rw [updated_eq, List.mem_filterMap]
  constructor
  · rintro ⟨p, hp, hu⟩
    refine ⟨p, hp, ?_⟩
    unfold updatedFor at hu
    cases hc : indexByPath curr p.Path with
    | none => simp [hc] at hu
    | some c =>
      rw [hc] at hu
      by_cases hlt : Time.Sub c.LastModified p.LastModified > tol
      · simp only [hlt, if_true, Option.some.injEq] at hu
        subst hu
        exact ⟨rfl, hlt⟩
      · simp [hlt] at hu
  · rintro ⟨p, hp, hc, hlt⟩
    refine ⟨p, hp, ?_⟩
    simp [updatedFor, hc, hlt]

/-- For a path present once in each listing, the curr object is reported as
updated exactly when the subtraction exceeds the tolerance. -/
theorem mem_updated_of_distinct {prev curr : List Object} {tol : Duration}
    (hp : DistinctPaths prev) (hc : DistinctPaths curr) {p c : Object}
    (hpm : p ∈ prev) (hcm : c ∈ curr) (hpath : c.Path = p.Path) :
    c ∈ (GetObjectSliceDiff prev curr tol).Updated ↔
      Time.Sub c.LastModified p.LastModified > tol := by
  rw [mem_updated_iff]
  constructor
  · rintro ⟨q, hq, hi, hlt⟩
    have hqc : c.Path = q.Path := (indexByPath_some hi).2
    have : q = p := eq_of_path_eq hp hq hpm (hqc.symm.trans hpath)
    subst this
    exact hlt
  · intro hlt
    refine ⟨p, hpm, ?_, hlt⟩
    rw [← hpath]
    exact indexByPath_of_distinct hc hcm

theorem Time.Sub_nonpos {t u : Time} (h : t ≤ u) : Time.Sub t u ≤ 0 := by
  unfold Time.Sub maxDuration minDuration
  split_ifs <;> linarith

theorem Time.Sub_self (t : Time) : Time.Sub t t = 0 := by
  unfold Time.Sub maxDuration minDuration
  split_ifs <;> linarith

/-- Within the range of a `Duration` the subtraction is exact. -/
theorem Time.Sub_exact {t u : Time} (hlo : minDuration ≤ t - u) (hhi : t - u ≤ maxDuration) :
    Time.Sub t u = t - u := by
  unfold Time.Sub
  unfold maxDuration minDuration at *
  split_ifs <;> linarith

/-- For a tolerance that is a `Duration` below the largest one, the saturating
subtraction exceeds the tolerance exactly when the true difference does. -/
theorem Time.Sub_gt_iff {t u : Time} {tol : Duration}
    (hlo : minDuration ≤ tol) (hhi : tol < maxDuration) :
    Time.Sub t u > tol ↔ t - u > tol := by
  unfold Time.Sub
  unfold maxDuration minDuration at *
  split_ifs <;> constructor <;> intro h <;> linarith

/-! ## Facts about the string helpers -/

theorem strings.Index_of_isPrefixOf {s substr : GoString} (h : substr.isPrefixOf s = true) :
    strings.Index s substr = some 0 := by
  cases s with
  | nil => simp [strings.Index, h]
  | cons c t => simp [strings.Index, h]

theorem strings.Index_append_left (old rest : GoString) :
    strings.Index (old ++ rest) old = some 0 :=
  strings.Index_of_isPrefixOf (List.isPrefixOf_iff_prefix.2 (List.prefix_append old rest))

/-- Searching for a one-byte string finds it exactly when the byte occurs. -/
theorem strings.Contains_singleton (s : GoString) (c : Char) :
    strings.Contains s [c] = true ↔ c ∈ s := by
  unfold strings.Contains
  induction s with
  | nil => simp [strings.Index, List.isPrefixOf]
  | cons a t ih =>
    by_cases hac : c = a
    · subst hac
      simp [strings.Index, List.isPrefixOf]
    · have hne : ¬ a = c := fun e => hac e.symm
      simp only [strings.Index, List.isPrefixOf, beq_iff_eq, hac, Bool.and_true,
        Bool.false_and, Bool.false_eq_true, if_false, Option.isSome_map', List.mem_cons, false_or]
      simpa using ih

theorem strings.ReplaceFirst_append_left (old rest : GoString) (h : old ≠ []) :
    strings.ReplaceFirst (old ++ rest) old [] = rest := by
  unfold strings.ReplaceFirst
  rw [if_neg h, strings.Index_append_left]
  simp

theorem objectPathIsInvalid_iff (path : GoString) :
    objectPathIsInvalid path = true ↔ path = [] ∨ '/' ∈ path := by
  unfold objectPathIsInvalid
  rw [Bool.or_eq_true, strings.Contains_singleton, decide_eq_true_iff]
  exact Or.comm

theorem removePrefixFromObjectPath_child (pfx rest : GoString) (h : pfx ≠ []) :
    removePrefixFromObjectPath pfx (pfx ++ '/' :: rest) = rest := by
  unfold removePrefixFromObjectPath
  rw [if_neg h]
  have : pfx ++ '/' :: rest = (pfx ++ ['/']) ++ rest := by simp
  rw [this]
  exact strings.ReplaceFirst_append_left _ _ (by simp)

/-! ## The claims about `GetObjectSliceDiff` -/

/-- C1: for every `prev`, `curr` and tolerance, `Removed` is exactly the list of the
objects of `prev` whose path is the path of no object in `curr`, in `prev` order;
in particular `prev = [x]`, `curr = []` gives `Removed = [x]`, `Added` and
`Updated` empty and `Change = true`. -/
theorem removed_is_prev_without_curr (prev curr : List Object) (tol : Duration) :
    (GetObjectSliceDiff prev curr tol).Removed =
        prev.filter (fun p => decide (∀ c ∈ curr, c.Path ≠ p.Path)) ∧
      ∀ x : Object, GetObjectSliceDiff [x] [] tol =
        { Change := true, Removed := [x], Added := [], Updated := [] } := by
  refine ⟨?_, ?_⟩
  · rw [removed_eq]
    congr 1
    funext p
    rw [Bool.eq_iff_iff, isNone_indexByPath, decide_eq_true_iff]
  · intro x
    simp [GetObjectSliceDiff, diffPrevStep, indexByPath, ObjectMap.empty]

/-- C2: for every `prev`, `curr` and tolerance, `Added` is exactly the list of the
objects of `curr` whose path is the path of no object in `prev`, in `curr` order. -/
theorem added_is_curr_without_prev (prev curr : List Object) (tol : Duration) :
    (GetObjectSliceDiff prev curr tol).Added =
      curr.filter (fun c => decide (∀ p ∈ prev, p.Path ≠ c.Path)) := by
  rw [added_eq]
  congr 1
  funext c
  rw [Bool.eq_iff_iff, isNone_indexByPath, decide_eq_true_iff]

/-- C3: for listings with pairwise-distinct paths, `Updated` is, in `prev` order,
the curr object for exactly those prev objects whose path also occurs in curr and
for which `curr.lastModified - prev.lastModified > tolerance`, strictly: a
difference equal to the tolerance is not an update, a difference of
tolerance + 1ns is. -/
theorem updated_is_strictly_newer (prev curr : List Object) (tol : Duration)
    (hp : DistinctPaths prev) (hc : DistinctPaths curr) :
    (GetObjectSliceDiff prev curr tol).Updated =
        prev.filterMap (fun p =>
          match curr.find? (fun c => decide (c.Path = p.Path)) with
          | some c => if Time.Sub c.LastModified p.LastModified > tol then some c else none
          | none => none) ∧
      (∀ o ∈ (GetObjectSliceDiff prev curr tol).Updated,
        o ∈ curr ∧ ∃ p ∈ prev, p.Path = o.Path) ∧
      ∀ p ∈ prev, ∀ c ∈ curr, c.Path = p.Path →
        (c ∈ (GetObjectSliceDiff prev curr tol).Updated ↔
          Time.Sub c.LastModified p.LastModified > tol) ∧
        (Time.Sub c.LastModified p.LastModified = tol →
          c ∉ (GetObjectSliceDiff prev curr tol).Updated) ∧
        (Time.Sub c.LastModified p.LastModified = tol + 1 →
          c ∈ (GetObjectSliceDiff prev curr tol).Updated) ∧
        (minDuration ≤ tol → tol < maxDuration →
          (c ∈ (GetObjectSliceDiff prev curr tol).Updated ↔
            c.LastModified - p.LastModified > tol)) := by
  refine ⟨?_, ?_, ?_⟩
  · rw [updated_eq]
    congr 1
    funext p
    unfold updatedFor
    rw [indexByPath_eq_find hc]
  · intro o ho
    obtain ⟨p, hpm, hi, _⟩ := mem_updated_iff.1 ho
    exact ⟨(indexByPath_some hi).1, p, hpm, (indexByPath_some hi).2.symm⟩
  · intro p hpm c hcm hpath
    have key : c ∈ (GetObjectSliceDiff prev curr tol).Updated ↔
        Time.Sub c.LastModified p.LastModified > tol :=
      mem_updated_of_distinct hp hc hpm hcm hpath
    refine ⟨key, ?_, ?_, fun hlo hhi => key.trans (Time.Sub_gt_iff hlo hhi)⟩
    · intro he hm
      have hlt := key.1 hm
      rw [he] at hlt
      exact lt_irrefl tol hlt
    · intro he
      refine key.2 ?_
      rw [he]
      exact Int.lt_succ tol

/-- Witness of C3 at the listings of the repository test, one second and one
nanosecond apart with a tolerance of one second. -/
theorem updated_is_strictly_newer_witness :
    DistinctPaths (listingAt 0) ∧ DistinctPaths (listingAt 1000000001) ∧
      (GetObjectSliceDiff (listingAt 0) (listingAt 1000000001) 1000000000).Updated =
        listingAt 1000000001 ∧
      (GetObjectSliceDiff (listingAt 0) (listingAt 1000000000) 1000000000).Updated = [] :=
  ⟨by decide, by decide,
    (updated_is_strictly_newer (listingAt 0) (listingAt 1000000001) 1000000000
      (by decide) (by decide)).1.trans (by decide),
    by decide⟩

/-- C4 (as stated, refuted): with prev holding `test1.txt` at 10ns, curr holding it
at 0ns and tolerance 0, the two timestamps differ by more than the tolerance, yet
the comparison reports no change at all; so the claim, that an object present in
both listings is in `Updated` whenever its timestamps differ by more than the
tolerance in either direction, is false. -/
theorem updated_misses_earlier_curr :
    GetObjectSliceDiff (listingAt 10) (listingAt 0) 0 =
        { Change := false, Removed := [], Added := [], Updated := [] } ∧
      ¬ ∀ (prev curr : List Object) (tol : Duration),
        DistinctPaths prev → DistinctPaths curr → 0 ≤ tol →
        ∀ p ∈ prev, ∀ c ∈ curr, c.Path = p.Path →
          (tol < c.LastModified - p.LastModified ∨ tol < p.LastModified - c.LastModified) →
          ∃ o ∈ (GetObjectSliceDiff prev curr tol).Updated, o.Path = p.Path := by
  refine ⟨by decide, ?_⟩
  intro h
  have hu : (GetObjectSliceDiff (listingAt 10) (listingAt 0) 0).Updated = [] := by decide
  obtain ⟨o, ho, _⟩ := h (listingAt 10) (listingAt 0) 0 (by decide) (by decide) (by decide)
    _ (List.mem_singleton_self _) _ (List.mem_singleton_self _) rfl (Or.inr (by decide))
  rw [hu] at ho
  cases ho

/-- C4 (amended): for listings with pairwise-distinct paths, an object whose path
occurs in both listings is in `Updated` exactly when curr's timestamp minus
prev's exceeds the tolerance; with a tolerance `≥ 0`, when curr's timestamp is
not later than prev's nothing with that path is in `Updated`. -/
theorem updated_iff_curr_later (prev curr : List Object) (tol : Duration)
    (hp : DistinctPaths prev) (hc : DistinctPaths curr)
    (p c : Object) (hpm : p ∈ prev) (hcm : c ∈ curr) (hpath : c.Path = p.Path) :
    (c ∈ (GetObjectSliceDiff prev curr tol).Updated ↔
        Time.Sub c.LastModified p.LastModified > tol) ∧
      (0 ≤ tol → c.LastModified ≤ p.LastModified →
        ∀ o ∈ (GetObjectSliceDiff prev curr tol).Updated, o.Path ≠ p.Path) := by
  refine ⟨mem_updated_of_distinct hp hc hpm hcm hpath, ?_⟩
  intro htol hle o ho hop
  obtain ⟨q, hq, hi, hlt⟩ := mem_updated_iff.1 ho
  have hoc : o ∈ curr := (indexByPath_some hi).1
  have hco : o = c := eq_of_path_eq hc hoc hcm (hop.trans hpath.symm)
  have hqp : q = p := eq_of_path_eq hp hq hpm ((indexByPath_some hi).2.symm.trans hop)
  subst hco hqp
  have hn : Time.Sub o.LastModified q.LastModified ≤ 0 := Time.Sub_nonpos hle
  exact absurd (lt_of_le_of_lt htol hlt) (not_lt.2 hn)

/-- Witness of the amended C4: curr is ten nanoseconds later than prev, and the
curr object is reported as updated. -/
theorem updated_iff_curr_later_witness :
    DistinctPaths (listingAt 0) ∧ DistinctPaths (listingAt 10) ∧
      (({ Path := "test1.txt".toList, LastModified := 10 } : Object) ∈
          (GetObjectSliceDiff (listingAt 0) (listingAt 10) 0).Updated ↔
        Time.Sub 10 0 > 0) :=
  ⟨by decide, by decide,
    (updated_iff_curr_later (listingAt 0) (listingAt 10) 0 (by decide) (by decide)
      _ _ (List.mem_singleton_self _) (List.mem_singleton_self _) rfl).1⟩

/-- C5: the `Change` flag is true if and only if at least one of the `Removed`,
`Added` and `Updated` lists is non-empty. -/
theorem change_iff_some_list_nonempty (prev curr : List Object) (tol : Duration) :
    (GetObjectSliceDiff prev curr tol).Change = true ↔
      (GetObjectSliceDiff prev curr tol).Removed ≠ [] ∨
      (GetObjectSliceDiff prev curr tol).Added ≠ [] ∨
      (GetObjectSliceDiff prev curr tol).Updated ≠ [] := by
  rw [change_eq, decide_eq_true_iff]
  simp only [ne_eq, ← List.length_eq_zero]
  omega

/-- C6: for every listing `xs` with pairwise-distinct paths and every tolerance
`≥ 0`, comparing `xs` with itself reports no change: `Change` is false and
`Removed`, `Added` and `Updated` are all empty. -/
theorem diff_self_no_change (xs : List Object) (tol : Duration)
    (hd : DistinctPaths xs) (htol : 0 ≤ tol) :
    GetObjectSliceDiff xs xs tol =
      { Change := false, Removed := [], Added := [], Updated := [] } := by
  have hr : (GetObjectSliceDiff xs xs tol).Removed = [] := by
    rw [removed_eq, List.filter_eq_nil_iff]
    intro p hp
    rw [indexByPath_of_distinct hd hp]
    simp
  have ha : (GetObjectSliceDiff xs xs tol).Added = [] := by
    rw [added_eq, List.filter_eq_nil_iff]
    intro p hp
    rw [indexByPath_of_distinct hd hp]
    simp
  have hu : (GetObjectSliceDiff xs xs tol).Updated = [] := by
    rw [List.eq_nil_iff_forall_not_mem]
    intro o ho
    obtain ⟨q, hq, hi, hlt⟩ := mem_updated_iff.1 ho
    rw [indexByPath_of_distinct hd hq] at hi
    cases hi
    rw [Time.Sub_self] at hlt
    exact absurd (lt_of_le_of_lt htol hlt) (lt_irrefl _)
  have hch : (GetObjectSliceDiff xs xs tol).Change = false := by
    rw [change_eq, hr, ha, hu]
    rfl
  cases hg : GetObjectSliceDiff xs xs tol with
  | mk ch r a u =>
    rw [hg] at hr ha hu hch
    simp only at hr ha hu hch
    rw [hr, ha, hu, hch]

/-- Witness of C6 at a listing of two objects and a tolerance of one second. -/
theorem diff_self_no_change_witness :
    DistinctPaths twoObjects ∧
      GetObjectSliceDiff twoObjects twoObjects 1000000000 =
        { Change := false, Removed := [], Added := [], Updated := [] } :=
  ⟨by decide, diff_self_no_change twoObjects 1000000000 (by decide) (by decide)⟩

/-- C7: every object `c` of `curr` whose path is the path of no object in `prev`
occurs in `Added`, and neither `c` nor any object with its path occurs in
`Updated` or in `Removed`. -/
theorem new_object_only_added (prev curr : List Object) (tol : Duration)
    (c : Object) (hc : c ∈ curr) (hnew : ∀ p ∈ prev, p.Path ≠ c.Path) :
    c ∈ (GetObjectSliceDiff prev curr tol).Added ∧
      (∀ o ∈ (GetObjectSliceDiff prev curr tol).Updated, o.Path ≠ c.Path) ∧
      (∀ o ∈ (GetObjectSliceDiff prev curr tol).Removed, o.Path ≠ c.Path) ∧
      c ∉ (GetObjectSliceDiff prev curr tol).Updated ∧
      c ∉ (GetObjectSliceDiff prev curr tol).Removed := by
  have hU : ∀ o ∈ (GetObjectSliceDiff prev curr tol).Updated, o.Path ≠ c.Path := by
    intro o ho hoc
    obtain ⟨q, hq, hi, _⟩ := mem_updated_iff.1 ho
    exact hnew q hq ((indexByPath_some hi).2.symm.trans hoc)
  have hR : ∀ o ∈ (GetObjectSliceDiff prev curr tol).Removed, o.Path ≠ c.Path := by
    intro o ho
    rw [removed_eq] at ho
    exact hnew o (List.mem_filter.1 ho).1
  refine ⟨?_, hU, hR, fun h => hU c h rfl, fun h => hR c h rfl⟩
  rw [added_eq, List.mem_filter]
  exact ⟨hc, (isNone_indexByPath prev c.Path).2 hnew⟩

/-- Witness of C7: `test2.txt` appears in curr only, as in the repository test. -/
theorem new_object_only_added_witness :
    ({ Path := "test2.txt".toList, LastModified := 0 } : Object) ∈
      (GetObjectSliceDiff (listingAt 0) twoObjects 0).Added :=
  (new_object_only_added (listingAt 0) twoObjects 0
    { Path := "test2.txt".toList, LastModified := 0 } (by decide) (by decide)).1

/-- C18: swapping the two listings swaps additions and removals, whatever the two
tolerances are. -/
theorem swap_exchanges_added_and_removed (prev curr : List Object) (t1 t2 : Duration) :
    (GetObjectSliceDiff prev curr t1).Removed = (GetObjectSliceDiff curr prev t2).Added ∧
      (GetObjectSliceDiff prev curr t1).Added = (GetObjectSliceDiff curr prev t2).Removed := by
  rw [removed_eq, added_eq, removed_eq, added_eq]
  exact ⟨rfl, rfl⟩

/-! ## The claims about the prefix helpers and the listing loops -/

/-- C8: in the listing loops of the object-store and cloud-blob adapters, with a
non-empty effective prefix `P`, a raw key `P + "/" + rest` yields an Object if
and only if `rest` is non-empty and contains no `/`, and the Object's path is then
`rest`; a key such as `P + "/sub/dir/file.txt"` is skipped. With `P` empty, a raw
key is listed if and only if it is non-empty and contains no `/`. -/
theorem listing_keeps_direct_children (pfx : GoString) (hP : pfx ≠ []) (rest : GoString)
    (t : Time) (objects : List Object) :
    awsListStep pfx objects ⟨pfx ++ '/' :: rest, t⟩ =
        (if rest ≠ [] ∧ '/' ∉ rest then
          objects ++ [{ Path := rest, Data := [], LastModified := t }]
        else objects) ∧
      (∀ (ε : Type) (more : List (Except ε ObjectAttrs)),
        gcpListLoop pfx (Except.ok ⟨pfx ++ '/' :: rest, t⟩ :: more) objects =
          gcpListLoop pfx more
            (if rest ≠ [] ∧ '/' ∉ rest then
              objects ++ [{ Path := rest, Data := [], LastModified := t }]
            else objects)) ∧
      awsListStep pfx objects ⟨pfx ++ "/sub/dir/file.txt".toList, t⟩ = objects ∧
      (∀ (ε : Type) (more : List (Except ε ObjectAttrs)),
        gcpListLoop pfx (Except.ok ⟨pfx ++ "/sub/dir/file.txt".toList, t⟩ :: more) objects =
          gcpListLoop pfx more objects) ∧
      (∀ key : GoString, awsListStep [] objects ⟨key, t⟩ =
        (if key ≠ [] ∧ '/' ∉ key then
          objects ++ [{ Path := key, Data := [], LastModified := t }]
        else objects)) ∧
      (∀ (key : GoString) (ε : Type) (more : List (Except ε ObjectAttrs)),
        gcpListLoop [] (Except.ok ⟨key, t⟩ :: more) objects =
          gcpListLoop [] more
            (if key ≠ [] ∧ '/' ∉ key then
              objects ++ [{ Path := key, Data := [], LastModified := t }]
            else objects)) := by
  have hinv : ∀ k : GoString, objectPathIsInvalid k = true ↔ ¬ (k ≠ [] ∧ '/' ∉ k) := by
    intro k
    rw [objectPathIsInvalid_iff]
    tauto
  have hsub : removePrefixFromObjectPath pfx (pfx ++ "/sub/dir/file.txt".toList) =
      "sub/dir/file.txt".toList :=
    removePrefixFromObjectPath_child pfx "sub/dir/file.txt".toList hP
  have hsubinv : objectPathIsInvalid "sub/dir/file.txt".toList = true := by decide
  have hempty : ∀ k : GoString, removePrefixFromObjectPath [] k = k := fun k => rfl
  refine ⟨?_, ?_, ?_, ?_, ?_, ?_⟩
  · unfold awsListStep
    simp only [removePrefixFromObjectPath_child pfx rest hP]
    by_cases h : rest ≠ [] ∧ '/' ∉ rest
    · rw [if_pos h, if_neg (fun hi => (hinv rest).1 hi h)]
    · rw [if_neg h, if_pos ((hinv rest).2 h)]
  · intro ε more
    rw [gcpListLoop]
    simp only [removePrefixFromObjectPath_child pfx rest hP]
    by_cases h : rest ≠ [] ∧ '/' ∉ rest
    · rw [if_pos h, if_neg (fun hi => (hinv rest).1 hi h)]
    · rw [if_neg h, if_pos ((hinv rest).2 h)]
  · unfold awsListStep
    simp only [hsub, hsubinv, if_true]
  · intro ε more
    rw [gcpListLoop]
    simp only [hsub, hsubinv, if_true]
  · intro key
    unfold awsListStep
    simp only [hempty]
    by_cases h : key ≠ [] ∧ '/' ∉ key
    · rw [if_pos h, if_neg (fun hi => (hinv key).1 hi h)]
    · rw [if_neg h, if_pos ((hinv key).2 h)]
  · intro key ε more
    rw [gcpListLoop]
    simp only [hempty]
    by_cases h : key ≠ [] ∧ '/' ∉ key
    · rw [if_pos h, if_neg (fun hi => (hinv key).1 hi h)]
    · rw [if_neg h, if_pos ((hinv key).2 h)]

/-- Witness of C8: under the prefix `charts` the key `charts/a.tgz` is listed as
`a.tgz`. -/
theorem listing_keeps_direct_children_witness :
    awsListStep "charts".toList [] ⟨"charts/a.tgz".toList, 7⟩ =
      [{ Path := "a.tgz".toList, Data := [], LastModified := 7 }] :=
  (listing_keeps_direct_children "charts".toList (by decide) "a.tgz".toList 7 []).1.trans
    (by decide)

/-- C9 (the code at the failing inputs): under the effective prefix `charts`, the
raw key `charts-old.tgz`, which begins with the prefix, is listed with the path
`charts-old.tgz` by both adapters although it is not `charts/` followed by that
path; and the raw key `charts-old-charts/a.tgz` is listed with the path
`charts-old-a.tgz`, an occurrence of `charts/` inside the key having been removed. -/
theorem listing_keeps_keys_outside_prefix :
    awsListStep "charts".toList [] ⟨"charts-old.tgz".toList, 0⟩ =
        [{ Path := "charts-old.tgz".toList, Data := [], LastModified := 0 }] ∧
      gcpListLoop "charts".toList
          [(Except.ok ⟨"charts-old.tgz".toList, 0⟩ : Except Unit ObjectAttrs)] [] =
        ([{ Path := "charts-old.tgz".toList, Data := [], LastModified := 0 }], none) ∧
      "charts-old.tgz".toList ≠ "charts".toList ++ '/' :: "charts-old.tgz".toList ∧
      awsListStep "charts".toList [] ⟨"charts-old-charts/a.tgz".toList, 0⟩ =
        [{ Path := "charts-old-a.tgz".toList, Data := [], LastModified := 0 }] ∧
      "charts-old-charts/a.tgz".toList ≠
        "charts".toList ++ '/' :: "charts-old-a.tgz".toList := by
  refine ⟨by decide, by decide, by decide, by decide, by decide⟩

/-- C10: `removePrefixFromObjectPath("", path) = path` for every path, and for
every non-empty prefix and every `rest`,
`removePrefixFromObjectPath(prefix, prefix + "/" + rest) = rest`: exactly one
leading occurrence is removed, also when `rest` itself begins with
`prefix + "/"`. -/
theorem removePrefix_strips_one_leading_occurrence (pfx rest : GoString) :
    removePrefixFromObjectPath [] rest = rest ∧
      (pfx ≠ [] →
        removePrefixFromObjectPath pfx (pfx ++ '/' :: rest) = rest ∧
        removePrefixFromObjectPath pfx (pfx ++ '/' :: (pfx ++ '/' :: rest)) =
          pfx ++ '/' :: rest) :=
  ⟨rfl, fun h => ⟨removePrefixFromObjectPath_child pfx rest h,
    removePrefixFromObjectPath_child pfx (pfx ++ '/' :: rest) h⟩⟩

/-- Witness of C10: one leading `a/` is removed from `a/a/b`. -/
theorem removePrefix_strips_one_leading_occurrence_witness :
    removePrefixFromObjectPath "a".toList "a/a/b".toList = "a/b".toList :=
  ((removePrefix_strips_one_leading_occurrence "a".toList "b".toList).2 (by decide)).2

/-- C11 (the code at the failing input): with the prefix `charts`, the key
`charts2/charts/a.tgz` (which a query for the prefix `charts` returns) does not
begin with `charts/`, and `removePrefixFromObjectPath` returns `charts2/a.tgz`,
not the path itself: the occurrence of `charts/` inside the path is removed. -/
theorem removePrefix_removes_inner_occurrence :
    ("charts".toList).isPrefixOf "charts2/charts/a.tgz".toList = true ∧
      ("charts/".toList).isPrefixOf "charts2/charts/a.tgz".toList = false ∧
      removePrefixFromObjectPath "charts".toList "charts2/charts/a.tgz".toList =
        "charts2/a.tgz".toList ∧
      removePrefixFromObjectPath "charts".toList "charts2/charts/a.tgz".toList ≠
        "charts2/charts/a.tgz".toList := by
  refine ⟨by decide, by decide, by decide, by decide⟩

/-! ## The claims about the adapters -/

/-- C12 (the code at the failing input): over a key-to-value store, after
`PutObject(k, d)` the call `GetObject(k)` succeeds, and the data of the Object it
returns is the bytes of the key `k`, whatever `d` is; with `k = "gettest"` and
`d = "testdate"` the data returned is `"gettest"`, not `d`. -/
theorem etcd_get_after_put_returns_key :
    (∀ (ε : Type) (store : KVStore) (k : GoString) (d : List Nat),
      (etcdStorage.GetObject
          (Except.ok ((etcdStorage.PutObject store k d).Get k) : Except ε (List KeyValue)) k) =
        Except.ok { Meta := { Name := [], Version := [] }, Path := k, Data := goBytes k }) ∧
      (etcdStorage.GetObject
          (Except.ok ((etcdStorage.PutObject KVStore.emptyStore "gettest".toList
            (goBytes "testdate".toList)).Get "gettest".toList) :
            Except Unit (List KeyValue)) "gettest".toList) =
        Except.ok { Meta := { Name := [], Version := [] }, Path := "gettest".toList,
                    Data := goBytes "gettest".toList } ∧
      goBytes "gettest".toList ≠ goBytes "testdate".toList := by
  have h : ∀ (ε : Type) (store : KVStore) (k : GoString) (d : List Nat),
      (etcdStorage.GetObject
          (Except.ok ((etcdStorage.PutObject store k d).Get k) : Except ε (List KeyValue)) k) =
        Except.ok { Meta := { Name := [], Version := [] }, Path := k, Data := goBytes k } := by
    intro ε store k d
    simp [etcdStorage.GetObject, etcdStorage.PutObject, KVStore.Put, KVStore.Get]
  exact ⟨h, h _ _ _ _, by decide⟩

/-! ## Closed forms of the listing loops -/

theorem foldl_dirListStep (files : List FileInfo) (objects : List Object) :
    files.foldl dirListStep objects =
      objects ++ (files.filter (fun f => !f.IsDir)).map fileObject := by
  induction files generalizing objects with
  | nil => simp
  | cons f t ih =>
    rw [List.foldl_cons, ih]
    unfold dirListStep
    cases hd : f.IsDir <;> simp [hd, fileObject]

theorem awsListStep_eq (pfx : GoString) (objects : List Object) (obj : S3Entry) :
    awsListStep pfx objects obj =
      objects ++ (listedObject pfx obj.Key obj.LastModified).toList := by
  unfold awsListStep listedObject
  by_cases h : objectPathIsInvalid (removePrefixFromObjectPath pfx obj.Key) = true
  · simp [h]
  · simp [h]

theorem awsListContents_eq (pfx : GoString) (contents : List S3Entry) (objects : List Object) :
    awsListContents pfx objects contents =
      objects ++ contents.filterMap (fun e => listedObject pfx e.Key e.LastModified) := by
  unfold awsListContents
  induction contents generalizing objects with
  | nil => simp
  | cons e t ih =>
    rw [List.foldl_cons, ih, awsListStep_eq, List.filterMap_cons]
    cases listedObject pfx e.Key e.LastModified <;> simp

theorem listedObject_data {pfx key : GoString} {t : Time} {o : Object}
    (h : listedObject pfx key t = some o) : o.Data = [] := by
  unfold listedObject at h
  split_ifs at h
  cases h
  rfl

theorem awsListContents_data (pfx : GoString) (contents : List S3Entry) (objects : List Object)
    (h : ∀ o ∈ objects, o.Data = []) :
    ∀ o ∈ awsListContents pfx objects contents, o.Data = [] := by
  intro o ho
  rw [awsListContents_eq, List.mem_append, List.mem_filterMap] at ho
  rcases ho with ho | ⟨e, _, he⟩
  · exact h o ho
  · exact listedObject_data he

theorem awsListLoop_data {ε : Type} (pfx : GoString) (responses : List (Except ε S3Page)) :
    ∀ (marker : Option GoString) (objects : List Object), (∀ o ∈ objects, o.Data = []) →
      ∀ (returned : List Object) (err : Option ε),
        (awsListLoop pfx responses marker objects).1 = ListOutcome.returned returned err →
        ∀ o ∈ returned, o.Data = [] := by
  induction responses with
  | nil =>
    intro marker objects _ returned err h
    simp [awsListLoop] at h
  | cons r later ih =>
    intro marker objects hobj returned err h
    cases r with
    | error e =>
      simp only [awsListLoop, ListOutcome.returned.injEq] at h
      rw [← h.1]
      exact hobj
    | ok page =>
      have hpage := awsListContents_data pfx page.Contents objects hobj
      rw [awsListLoop] at h
      cases htr : page.IsTruncated with
      | false =>
        simp only [htr, Bool.not_false, if_true, ListOutcome.returned.injEq] at h
        rw [← h.1]
        exact hpage
      | true =>
        simp only [htr, Bool.not_true, Bool.false_eq_true, if_false] at h
        cases hl : page.Contents.getLast? with
        | none => simp [hl] at h
        | some last =>
          simp only [hl] at h
          exact ih _ _ hpage returned err h

theorem gcpListLoop_data {ε : Type} (pfx : GoString) (it : List (Except ε ObjectAttrs)) :
    ∀ objects : List Object, (∀ o ∈ objects, o.Data = []) →
      ∀ o ∈ (gcpListLoop pfx it objects).1, o.Data = [] := by
  induction it with
  | nil =>
    intro objects h
    simpa [gcpListLoop] using h
  | cons r later ih =>
    intro objects h
    cases r with
    | error e => simpa [gcpListLoop] using h
    | ok attrs =>
      rw [gcpListLoop]
      by_cases hinv : objectPathIsInvalid (removePrefixFromObjectPath pfx attrs.Name) = true
      · simp only [hinv, if_true]
        exact ih objects h
      · simp only [hinv, if_false]
        apply ih
        intro o ho
        rcases List.mem_append.1 ho with ho | ho
        · exact h o ho
        · rw [List.mem_singleton] at ho
          rw [ho]

theorem foldl_etcd_list (kvs : List KeyValue) (result : List Object) :
    kvs.foldl (fun result val =>
        result ++ [({ Meta := { Name := [], Version := [] }, Path := goString val.Key,
                      Data := val.Value } : Object)]) result =
      result ++ kvs.map (fun val =>
        ({ Meta := { Name := [], Version := [] }, Path := goString val.Key,
           Data := val.Value } : Object)) := by
  induction kvs generalizing result with
  | nil => simp
  | cons kv t ih => rw [List.foldl_cons, ih]; simp

/-- C13 (the code at the failing input): for the key-value adapter, from the
response holding the key `listtest1` with the value `puttestetcd`, `ListObjects`
returns one Object whose data is that value, not empty as the three other
adapters make it. -/
theorem etcd_list_returns_values :
    (etcdStorage.ListObjects
        (Except.ok [{ Key := goBytes "listtest1".toList, Value := goBytes "puttestetcd".toList }] :
          Except Unit (List KeyValue))) =
      Except.ok [{ Meta := { Name := [], Version := [] }, Path := "listtest1".toList,
                   Data := goBytes "puttestetcd".toList }] ∧
      goBytes "puttestetcd".toList ≠ [] := by
  refine ⟨rfl, by decide⟩

/-- The data of listed Objects, adapter by adapter: for the filesystem,
object-store and cloud-blob adapters and every backend response, every Object
returned by `ListObjects` has empty data; the key-value adapter returns, for each
pair of the response in order, an Object whose data is the value of the pair. -/
theorem list_data_empty_but_key_value :
    (∀ (ε : Type) (isNotExist : ε → Bool) (read : Except ε (List FileInfo)),
      ∀ o ∈ (DirStorage.ListObjects isNotExist read).1, o.Data = []) ∧
    (∀ (ε : Type) (pfx : GoString) (responses : List (Except ε S3Page))
      (objects : List Object) (err : Option ε),
      (AWSStorage.ListObjects pfx responses).1 = ListOutcome.returned objects err →
      ∀ o ∈ objects, o.Data = []) ∧
    (∀ (ε : Type) (pfx : GoString) (it : List (Except ε ObjectAttrs)),
      ∀ o ∈ (GCPStorage.ListObjects pfx it).1, o.Data = []) ∧
    (∀ (ε : Type) (kvs : List KeyValue),
      etcdStorage.ListObjects (Except.ok kvs : Except ε (List KeyValue)) =
        Except.ok (kvs.map (fun val =>
          ({ Meta := { Name := [], Version := [] }, Path := goString val.Key,
             Data := val.Value } : Object)))) := by
  refine ⟨?_, ?_, ?_, ?_⟩
  · intro ε isNotExist read o ho
    cases read with
    | error e =>
      by_cases h : isNotExist e = true <;> simp [DirStorage.ListObjects, h] at ho
    | ok files =>
      simp only [DirStorage.ListObjects, foldl_dirListStep, List.nil_append,
        List.mem_map] at ho
      obtain ⟨f, _, hf⟩ := ho
      rw [← hf]
      rfl
  · intro ε pfx responses objects err h
    exact awsListLoop_data pfx responses none [] (fun o ho => by cases ho) objects err h
  · intro ε pfx it
    exact gcpListLoop_data pfx it [] (fun o ho => by cases ho)
  · intro ε kvs
    simp only [etcdStorage.ListObjects, foldl_etcd_list, List.nil_append]

/-- C14: `DirStorage.ListObjects` as a function of the outcome of the directory
read: when the read fails because the directory does not exist it returns an
empty list and no error; when it fails for another reason it returns that error;
otherwise it returns, in the order of the read, one Object per entry that is not
a directory (the entry's name as path, empty data, the entry's modification time)
and no Object for a subdirectory entry. -/
theorem dir_list_by_read_outcome {ε : Type} (isNotExist : ε → Bool) :
    (∀ err : ε, isNotExist err = true →
      DirStorage.ListObjects isNotExist (Except.error err) = ([], none)) ∧
    (∀ err : ε, isNotExist err = false →
      DirStorage.ListObjects isNotExist (Except.error err) = ([], some err)) ∧
    (∀ files : List FileInfo,
      DirStorage.ListObjects isNotExist (Except.ok files) =
        ((files.filter (fun f => !f.IsDir)).map (fun f =>
          ({ Path := f.Name, Data := [], LastModified := f.ModTime } : Object)), none)) ∧
    (∀ files : List FileInfo,
      ∀ o ∈ (DirStorage.ListObjects isNotExist (Except.ok files)).1,
        ∃ g ∈ files, g.IsDir = false ∧ o.Path = g.Name) := by
  refine ⟨?_, ?_, ?_, ?_⟩
  · intro err h
    simp [DirStorage.ListObjects, h]
  · intro err h
    simp [DirStorage.ListObjects, h]
  · intro files
    simp only [DirStorage.ListObjects, foldl_dirListStep, List.nil_append]
    rfl
  · intro files o ho
    simp only [DirStorage.ListObjects, foldl_dirListStep, List.nil_append, List.mem_map,
      List.mem_filter] at ho
    obtain ⟨g, ⟨hg, hd⟩, hgo⟩ := ho
    refine ⟨g, hg, by simpa using hd, ?_⟩
    rw [← hgo]
    rfl

/-- Witness of C14: a missing directory gives the empty list and no error, and
the example read gives the file and not the directory `ignoreme`. -/
theorem dir_list_by_read_outcome_witness :
    DirStorage.ListObjects (fun e : Bool => e) (Except.error true) = ([], none) ∧
      DirStorage.ListObjects (fun e : Bool => e) (Except.error false) = ([], some false) ∧
      DirStorage.ListObjects (fun e : Bool => e) (Except.ok exampleEntries) =
        ([{ Path := "test1.txt".toList, Data := [], LastModified := 7 }], none) :=
  ⟨(dir_list_by_read_outcome (fun e : Bool => e)).1 true rfl,
    (dir_list_by_read_outcome (fun e : Bool => e)).2.1 false rfl,
    ((dir_list_by_read_outcome (fun e : Bool => e)).2.2.1 exampleEntries).trans rfl⟩

/-- The loop of `AWSStorage.ListObjects` over pages of which every one but the
last is truncated and non-empty: it returns, and the markers it sends are the
last keys of the pages before. -/
theorem awsListLoop_pages {ε : Type} (pfx : GoString) (init : List S3Page) (last : S3Page)
    (hlast : last.IsTruncated = false) :
    (∀ p ∈ init, p.IsTruncated = true ∧ p.Contents ≠ []) →
    ∀ (marker : Option GoString) (objects : List Object),
      awsListLoop pfx ((init ++ [last]).map (fun p => (Except.ok p : Except ε S3Page)))
          marker objects =
        (ListOutcome.returned
          (objects ++ (init ++ [last]).flatMap (fun p =>
            p.Contents.filterMap (fun e => listedObject pfx e.Key e.LastModified))) none,
          marker :: init.map (fun p => p.Contents.getLast?.map (fun e => e.Key))) := by
  induction init with
  | nil =>
    intro _ marker objects
    simp [awsListLoop, hlast, awsListContents_eq]
  | cons p t ih =>
    intro h marker objects
    have hp := h p (List.mem_cons_self _ _)
    have ht : ∀ q ∈ t, q.IsTruncated = true ∧ q.Contents ≠ [] :=
      fun q hq => h q (List.mem_cons_of_mem _ hq)
    obtain ⟨e, he⟩ : ∃ e, p.Contents.getLast? = some e := by
      cases hl : p.Contents.getLast? with
      | none => exact absurd (List.getLast?_eq_none_iff.1 hl) hp.2
      | some e => exact ⟨e, rfl⟩
    rw [List.cons_append, List.map_cons, awsListLoop]
    simp only [hp.1, Bool.not_true, Bool.false_eq_true, if_false, he]
    rw [ih ht, awsListContents_eq]
    simp only [List.cons_append, List.flatMap_cons, List.append_assoc, List.map_cons,
      he, Option.map_some']

/-- C15 (the code at the failing input): when the first page reports truncation
and holds no entry, `AWSStorage.ListObjects` faults on the index of the last key
instead of completing, although a further page is there. -/
theorem aws_list_faults_on_empty_truncated_page :
    AWSStorage.ListObjects "charts".toList
        [(Except.ok { Contents := [], IsTruncated := true } : Except Unit S3Page),
         Except.ok { Contents := [{ Key := "charts/a.tgz".toList, LastModified := 1 }],
                     IsTruncated := false }] =
      (ListOutcome.indexOutOfRange, [none]) := by
  rfl

/-! ## `filepath.Ext` and `HasExtension` -/

theorem filepath.ExtLoop_eq (r acc : GoString) :
    filepath.ExtLoop r acc =
      if '.' ∈ r.takeWhile (fun x => x != '/') then
        '.' :: ((r.takeWhile (fun x => x != '/')).takeWhile (fun x => x != '.')).reverse ++ acc
      else [] := by
  induction r generalizing acc with
  | nil => simp [filepath.ExtLoop]
  | cons c t ih =>
    unfold filepath.ExtLoop
    by_cases hs : c = '/'
    · simp [hs]
    · by_cases hd : c = '.'
      · subst hd
        simp [List.takeWhile_cons]
      · have hd2 : ¬ '.' = c := fun e => hd e.symm
        rw [if_neg hs, if_neg hd, ih]
        simp [List.takeWhile_cons, hs, hd, hd2]

/-- The extension is the text from the last dot of the last segment on, and empty
when the last segment has no dot. -/
theorem filepath.Ext_eq (path : GoString) :
    filepath.Ext path =
      if '.' ∈ lastSegment path then '.' :: textAfterLast '.' (lastSegment path) else [] := by
  unfold filepath.Ext
  rw [filepath.ExtLoop_eq]
  simp [lastSegment, textAfterLast]

theorem textAfterLast_not_mem (c : Char) (s : GoString) : c ∉ textAfterLast c s := by
  unfold textAfterLast
  intro h
  have := List.mem_takeWhile_imp (List.mem_reverse.1 h)
  simp at this

theorem textAfterLast_subset (c : Char) (s : GoString) {x : Char}
    (h : x ∈ textAfterLast c s) : x ∈ s := by
  unfold textAfterLast at h
  have h1 := (List.takeWhile_sublist _).subset (List.mem_reverse.1 h)
  exact List.mem_reverse.1 h1

theorem Object.HasExtension_iff (object : Object) (ext : GoString) :
    object.HasExtension ext = true ↔
      '.' ∈ lastSegment object.Path ∧ textAfterLast '.' (lastSegment object.Path) = ext := by
  unfold Object.HasExtension
  rw [decide_eq_true_iff, filepath.Ext_eq]
  by_cases h : '.' ∈ lastSegment object.Path
  · simp [h]
  · simp [h]

/-- C16: `HasExtension(ext)` is true if and only if the last path segment (the
text after the final `/`) contains a `.` and the text after that segment's last
`.` equals `ext` exactly; so it is true for `mychart-0.1.0.tgz` with `tgz` and
false for `mychart-0.1.0.txt` with `tgz`. -/
theorem hasExtension_iff_last_segment_extension (object : Object) (ext : GoString) :
    (object.HasExtension ext = true ↔
        '.' ∈ lastSegment object.Path ∧ textAfterLast '.' (lastSegment object.Path) = ext) ∧
      Object.HasExtension { Path := "mychart-0.1.0.tgz".toList } "tgz".toList = true ∧
      Object.HasExtension { Path := "mychart-0.1.0.txt".toList } "tgz".toList = false := by
  exact ⟨Object.HasExtension_iff object ext, by decide, by decide⟩

/-- C19: for every object and every extension that contains a `.` or a `/`,
`HasExtension` returns false, also when the path ends with `.` followed by that
extension. -/
theorem hasExtension_false_of_compound (object : Object) (ext : GoString)
    (h : '.' ∈ ext ∨ '/' ∈ ext) :
    object.HasExtension ext = false ∧
      Object.HasExtension { object with Path := object.Path ++ '.' :: ext } ext = false := by
  have key : ∀ o : Object, o.HasExtension ext = false := by
    intro o
    rw [Bool.eq_false_iff]
    intro ht
    obtain ⟨_, he⟩ := (Object.HasExtension_iff o ext).1 ht
    rcases h with h | h
    · rw [← he] at h
      exact textAfterLast_not_mem '.' _ h
    · rw [← he] at h
      exact textAfterLast_not_mem '/' _ (textAfterLast_subset '.' _ h)
  exact ⟨key _, key _⟩

/-- Witness of C19: `a.tar.gz` does not have the extension `tar.gz`. -/
theorem hasExtension_false_of_compound_witness :
    Object.HasExtension { Path := "a.tar.gz".toList } "tar.gz".toList = false :=
  (hasExtension_false_of_compound { Path := "a".toList } "tar.gz".toList
    (Or.inl (by decide))).2

/-! ## `cleanPrefix` -/

theorem cleanPrefix_eq (p : GoString) :
    cleanPrefix p = (p.rdropWhile (fun x => x == '/')).dropWhile (fun x => x == '/') := by
  unfold cleanPrefix strings.Trim
  by_cases hp : p = []
  · simp [hp, List.rdropWhile]
  · simp [hp, strings.trimLeftByte, strings.trimRightByte, List.rdropWhile]

theorem cleanPrefix_head (p : GoString) : (cleanPrefix p).head? ≠ some '/' := by
  rw [cleanPrefix_eq]
  intro h
  have := List.head?_dropWhile_not (fun x => x == '/') (p.rdropWhile (fun x => x == '/'))
  rw [h] at this
  simp at this

theorem cleanPrefix_getLast (p : GoString) : (cleanPrefix p).getLast? ≠ some '/' := by
  rw [cleanPrefix_eq]
  intro h
  have hne : (p.rdropWhile (fun x => x == '/')).dropWhile (fun x => x == '/') ≠ [] := by
    intro e
    rw [e] at h
    simp at h
  have hsuf := List.dropWhile_suffix (l := p.rdropWhile (fun x => x == '/')) (fun x => x == '/')
  have hne2 : p.rdropWhile (fun x => x == '/') ≠ [] := by
    intro e
    rw [e] at hne
    simp at hne
  have hlast := hsuf.getLast hne
  have hnot := List.rdropWhile_last_not (fun x => x == '/') p hne2
  rw [List.getLast?_eq_getLast _ hne, Option.some.injEq] at h
  rw [← hlast, h] at hnot
  simp at hnot

/-- C17: for every string `p`, `cleanPrefix(p)` neither begins nor ends with `/`,
and `cleanPrefix` is idempotent. -/
theorem cleanPrefix_trimmed_and_idempotent (p : GoString) :
    (cleanPrefix p).head? ≠ some '/' ∧ (cleanPrefix p).getLast? ≠ some '/' ∧
      cleanPrefix (cleanPrefix p) = cleanPrefix p := by
  refine ⟨cleanPrefix_head p, cleanPrefix_getLast p, ?_⟩
  have h1 : (cleanPrefix p).rdropWhile (fun x => x == '/') = cleanPrefix p := by
    rw [List.rdropWhile_eq_self_iff]
    intro hl hx
    apply cleanPrefix_getLast p
    rw [List.getLast?_eq_getLast _ hl]
    simpa using hx
  have h2 : (cleanPrefix p).dropWhile (fun x => x == '/') = cleanPrefix p := by
    rw [List.dropWhile_eq_self_iff]
    intro hl hx
    apply cleanPrefix_head p
    cases hq : cleanPrefix p with
    | nil => rw [hq] at hl; simp at hl
    | cons a t =>
      simp only [hq, List.get_eq_getElem, List.getElem_cons_zero, beq_iff_eq] at hx
      simp [hx]
  rw [cleanPrefix_eq (cleanPrefix p), h1, h2]

end Storage
